import Mathlib

/-!
Verification of the optimization passes of a Bril-style compiler-optimization
repository: block formation, CFG construction, local value numbering, local and
global dead code elimination, alias-sensitive dead-store elimination, loop
invariant code motion legality, and the generic worklist dataflow engine.
Python dictionaries are modelled as association lists with in-place update
(an assignment to an existing key keeps its position, a new key is appended),
Python sets used only through membership as lists, and Python sets compared
for equality as `Finset String` (whose equality is extensional, like Python's).
-/

/-- An IR instruction: a Python dict with the optional fields used by the
passes.  A missing key is `none`.  `label`-only entries are label markers. -/
structure Instr where
  op : Option String := none
  dest : Option String := none
  typ : Option String := none
  args : Option (List String) := none
  value : Option Int := none
  labels : Option (List String) := none
  funcs : Option (List String) := none
  label : Option String := none
deriving DecidableEq, Repr, Inhabited

/-- A function of the IR: name, typed parameters, optional return type and the
instruction list.  The passes under verification rewrite only `instrs`. -/
structure Func where
  name : String := ""
  args : List (String × String) := []
  rtype : Option String := none
  instrs : List Instr := []
deriving DecidableEq, Repr, Inhabited

/-- Association-list lookup, mirroring Python `dict[k]` / `dict.get(k)`. -/
def alookup {κ α : Type} [DecidableEq κ] (k : κ) : List (κ × α) → Option α
  | [] => none
  | (k', v) :: rest => if k' = k then some v else alookup k rest

/-- Association-list assignment, mirroring Python `dict[k] = v`: an existing
key keeps its position, a new key is appended at the end. -/
def aset {κ α : Type} [DecidableEq κ] (k : κ) (v : α) : List (κ × α) → List (κ × α)
  | [] => [(k, v)]
  | (k', v') :: rest => if k' = k then (k', v) :: rest else (k', v') :: aset k v rest

/-- Association-list key removal, mirroring Python `dict.pop(k, None)`. -/
def aerase {κ α : Type} [DecidableEq κ] (k : κ) : List (κ × α) → List (κ × α)
  | [] => []
  | (k', v') :: rest => if k' = k then rest else (k', v') :: aerase k rest

/-- Removal of the first occurrence of an element, mirroring Python
`list.remove(x)` (a no-op when `x` is absent). -/
def py_remove_first {α : Type} [DecidableEq α] (x : α) : List α → List α
  | [] => []
  | a :: rest => if a = x then rest else a :: py_remove_first x rest

/-- Whether an instruction's opcode is one of the TERMINATORS `br, jmp, ret`. -/
def is_term (i : Instr) : Bool :=
  i.op = some "br" || i.op = some "jmp" || i.op = some "ret"

/-- Worker of `form_blocks`: `cur` is the pending block being accumulated. -/
def fb_go : List Instr → List Instr → List (List Instr)
  | [], cur => if cur = [] then [] else [cur]
  | i :: rest, cur =>
    if i.op.isSome then
      if is_term i then (cur ++ [i]) :: fb_go rest []
      else fb_go rest (cur ++ [i])
    else
      (if cur = [] then [] else [cur]) ++ fb_go rest [i]

/-- `form_blocks` of `util.py`: split an instruction list into basic blocks.
A new block starts at each label or right after a terminator; an empty pending
block is discarded, never yielded. -/
def form_blocks (instrs : List Instr) : List (List Instr) :=
  fb_go instrs []

/-- `flatten` of `util.py`: concatenate a list of blocks back into a single
instruction list. -/
def flatten (blocks : List (List Instr)) : List Instr :=
  blocks.flatten

lemma fb_go_flatten (rest : List Instr) :
    ∀ cur : List Instr, (fb_go rest cur).flatten = cur ++ rest := by
  induction rest with
  | nil =>
    intro cur
    by_cases h : cur = [] <;> simp [fb_go, h]
  | cons i rest ih =>
    intro cur
    by_cases hop : i.op.isSome
    · by_cases hterm : is_term i = true
      · simp [fb_go, hop, hterm, ih]
      · simp [fb_go, hop, hterm, ih]
    · by_cases hcur : cur = []
      · simp [fb_go, hop, hcur, ih]
      · simp [fb_go, hop, hcur, ih]

lemma fb_go_nonempty (rest : List Instr) :
    ∀ cur b, b ∈ fb_go rest cur → b ≠ [] := by
  induction rest with
  | nil =>
    intro cur b hb
    by_cases h : cur = []
    · simp [fb_go, h] at hb
    · simp [fb_go, h] at hb
      simpa [hb] using h
  | cons i rest ih =>
    intro cur b hb
    by_cases hop : i.op.isSome
    · by_cases hterm : is_term i = true
      · simp [fb_go, hop, hterm] at hb
        rcases hb with hb | hb
        · simp [hb]
        · exact ih [] b hb
      · simp [fb_go, hop, hterm] at hb
        exact ih _ b hb
    · by_cases hcur : cur = []
      · simp [fb_go, hop, hcur] at hb
        exact ih [i] b hb
      · simp [fb_go, hop, hcur] at hb
        rcases hb with hb | hb
        · simpa [hb] using hcur
        · exact ih [i] b hb

/-- C6: for every instruction list, concatenating the blocks produced by
`form_blocks` yields exactly the original list (no instruction duplicated or
dropped), and every produced block is non-empty. -/
theorem form_blocks_partition (instrs : List Instr) :
    flatten (form_blocks instrs) = instrs ∧
    ∀ b, b ∈ form_blocks instrs → b ≠ [] := by
  constructor
  · simpa [flatten, form_blocks] using fb_go_flatten instrs []
  · intro b hb
    exact fb_go_nonempty instrs [] b hb

/-- Witness for C6 at a concrete three-instruction program with a label and a
terminator. -/
theorem form_blocks_partition_witness :
    flatten (form_blocks
      [{ op := some "ret" }, { label := some "next" },
       { op := some "const", dest := some "x", typ := some "int", value := some 1 }]) =
      [{ op := some "ret" }, { label := some "next" },
       { op := some "const", dest := some "x", typ := some "int", value := some 1 }] ∧
    ([{ op := some "ret" }] : List Instr) ≠ [] := by
  refine ⟨(form_blocks_partition _).1, ?_⟩
  exact (form_blocks_partition
    [{ op := some "ret" }, { label := some "next" },
     { op := some "const", dest := some "x", typ := some "int", value := some 1 }]).2
    [{ op := some "ret" }] (by decide)

/-!
Global dead code elimination, `local_opt/global_dce.py`.
The Python pass mutates `func["instrs"]` while iterating over it with a plain
`for` loop: the loop keeps an index that advances even when the current element
was removed, so the element after a removed one is skipped in that sweep.  The
`used` set is created once, before the `while not converge` loop, and is only
ever extended, never reset.  Both behaviours are modelled exactly.
-/

/-- One sweep of the removal loop of `global_dce` (the second `for` loop over
`func["instrs"]`): `k` is the position of Python's list iterator, `changed`
records whether any instruction was removed.  The fuel equals the iteration
count of the Python loop: the index grows by one per iteration and the list
never grows, so `lst.length` iterations always suffice; at fuel 0 the index is
past the end of the list and the sweep is over. -/
def gdce_sweep (used : List String) : Nat → List Instr → Nat → Bool → List Instr × Bool
  | 0, lst, _, changed => (lst, changed)
  | fuel + 1, lst, k, changed =>
    if h : k < lst.length then
      let instr := lst.get ⟨k, h⟩
      match instr.dest with
      | some d =>
        if d ∈ used then gdce_sweep used fuel lst (k + 1) changed
        else gdce_sweep used fuel (py_remove_first instr lst) (k + 1) true
      | none => gdce_sweep used fuel lst (k + 1) changed
    else (lst, changed)

/-- The `while not converge` loop of `global_dce`: every continuing iteration
has removed at least one instruction, so `instrs.length + 1` iterations always
suffice as fuel.  `used` persists across iterations, exactly as in the source,
where the set is created before the loop and never cleared. -/
def gdce_loop : Nat → List String → List Instr → List Instr
  | 0, _, instrs => instrs
  | fuel + 1, used, instrs =>
    let used' := used ++ instrs.foldl (fun acc i => acc ++ i.args.getD []) []
    let p := gdce_sweep used' instrs.length instrs 0 false
    if p.2 then gdce_loop fuel used' p.1 else p.1

/-- `global_dce` of `local_opt/global_dce.py`: run the convergence loop on the
function's instruction list. -/
def global_dce (f : Func) : Func :=
  { f with instrs := gdce_loop (f.instrs.length + 1) [] f.instrs }

/-!
Local dead code elimination, `local_opt/local_dce.py`.
Per block, a forward scan records in `last_def` the index of the most recent
unconsumed definition of each variable and pops that index when the variable is
redefined.  The scan enumerates the block while popping elements from it, so
after a pop every recorded index that pointed behind the popped position is
stale, and the iterator skips the element that slid into the current slot.
Both effects are modelled exactly.
-/

/-- One block of `local_dce`: `k` is the position of Python's `enumerate`
iterator over the mutating block, `ld` is the `last_def` dictionary.  As in
`gdce_sweep`, the initial block length bounds the number of loop iterations,
so it serves as the fuel. -/
def ldce_go : Nat → List Instr → List (String × Nat) → Nat → List Instr
  | 0, blk, _, _ => blk
  | fuel + 1, blk, ld, k =>
    if h : k < blk.length then
      let instr := blk.get ⟨k, h⟩
      let ld1 := (instr.args.getD []).foldl (fun m a => aerase a m) ld
      match instr.dest with
      | some d =>
        match alookup d ld1 with
        | some j => ldce_go fuel (blk.eraseIdx j) (aset d k ld1) (k + 1)
        | none => ldce_go fuel blk (aset d k ld1) (k + 1)
      | none => ldce_go fuel blk ld1 (k + 1)
    else blk

/-- `local_dce` of `local_opt/local_dce.py`: form blocks, run the in-place
scan on each, and flatten the blocks back into the instruction list. -/
def local_dce (f : Func) : Func :=
  { f with instrs := flatten ((form_blocks f.instrs).map
      (fun b => ldce_go b.length b [] 0)) }

/-- The two-instruction function of the spec's global-DCE example:
`a:int = const 1; b:int = add a a;` with `b` read nowhere. -/
def gdceExampleFunc : Func :=
  { name := "main",
    instrs := [
      { op := some "const", dest := some "a", typ := some "int", value := some 1 },
      { op := some "add", dest := some "b", typ := some "int", args := some ["a", "a"] }] }

/-- C1 (code bug): on the spec's own example, `global_dce` removes `b`'s
instruction but then keeps `a:int = const 1` forever: the `used` set still
contains the stale use of `a` contributed by the removed `add`, because the
set is created before the convergence loop and never rebuilt.  The fixpoint
therefore leaves an instruction (`a`'s) whose destination is read nowhere,
contradicting the claim. -/
theorem global_dce_keeps_dead_const :
    global_dce gdceExampleFunc =
      { name := "main",
        instrs := [{ op := some "const", dest := some "a", typ := some "int",
                     value := some 1 }] } ∧
    (global_dce gdceExampleFunc).instrs.all
      (fun i => !((i.args.getD []).contains "a")) = true := by
  constructor
  · rfl
  · decide

/-- A six-instruction single-block function on which `local_dce`'s stale
`last_def` indices make it pop a `print` instruction. -/
def ldceExampleFunc : Func :=
  { name := "main",
    instrs := [
      { op := some "const", dest := some "a", typ := some "int", value := some 1 },
      { op := some "const", dest := some "b", typ := some "int", value := some 1 },
      { op := some "print", args := some ["z"] },
      { op := some "const", dest := some "a", typ := some "int", value := some 2 },
      { op := some "const", dest := some "c", typ := some "int", value := some 3 },
      { op := some "const", dest := some "b", typ := some "int", value := some 2 }] }

/-- C10 (code bug): `local_dce` pops block elements by the index stored in
`last_def`, but those indices go stale once an earlier element has been popped.
On this input the redefinition of `a` pops index 0 and shifts the block, after
which the redefinition of `b` pops index 1 — which now holds the destination-
less `print z` instruction.  The `print` is removed (and the actually dead
`b:int = const 1` survives), contradicting the claim that instructions without
a destination always survive both DCE passes. -/
theorem local_dce_removes_print :
    local_dce ldceExampleFunc =
      { name := "main",
        instrs := [
          { op := some "const", dest := some "b", typ := some "int", value := some 1 },
          { op := some "const", dest := some "a", typ := some "int", value := some 2 },
          { op := some "const", dest := some "c", typ := some "int", value := some 3 },
          { op := some "const", dest := some "b", typ := some "int", value := some 2 }] } ∧
    ({ op := some "print", args := some ["z"] } : Instr) ∈ ldceExampleFunc.instrs ∧
    ({ op := some "print", args := some ["z"] } : Instr).dest = none ∧
    ({ op := some "print", args := some ["z"] } : Instr) ∉ (local_dce ldceExampleFunc).instrs := by
  refine ⟨rfl, by decide, rfl, by decide⟩

/-!
CFG construction.  Both builders in the repository are modelled:
`get_cfg` of `dataflow/dataflow.py` over plain blocks, and
`construct_cfg` of `memory/dse.py` over index-tagged blocks.
The index tag models Python's `id(instr)` instruction identity: every
instruction is paired with its position in the function's instruction list,
which is how `dse.py`'s allocation-site table keyed by `id(instr)` is
reproduced in a pure setting.
-/

/-- `fresh` of `util.py`: the first name `seed + str(i)`, for `i = 0, 1, ...`,
that is not in `names`.  The Python loop is unbounded; because the candidates
are pairwise distinct, an admissible `i` exists among `0 .. names.length`, so
the search is total and the default branch is unreachable. -/
def fresh (seed : String) (names : List String) : String :=
  let i := ((List.range (names.length + 1)).find?
    (fun i => (seed ++ toString i) ∉ names)).getD (names.length + 1)
  seed ++ toString i

/-- Worker of `get_block_labels` of `dataflow/dataflow.py`: the label of each
block is its leading label instruction, else a fresh `block.{i}` name;  every
assigned label is added to the name pool (as in the source, whether fresh or
not). -/
def get_block_labels_go : List (List Instr) → Nat → List String → List (Nat × String)
  | [], _, _ => []
  | b :: rest, i, names =>
    let label := (b.headD {}).label.getD (fresh ("block." ++ toString i) names)
    (i, label) :: get_block_labels_go rest (i + 1) (label :: names)

/-- `get_block_labels` of `dataflow/dataflow.py`. -/
def get_block_labels (blocks : List (List Instr)) : List (Nat × String) :=
  get_block_labels_go blocks 0 []

/-- Worker of `get_cfg` of `dataflow/dataflow.py`: successors of block `i` are
the jump target for `jmp`, both branch targets for `br`, and otherwise the
next block in program order when one exists.  A `ret` is not special-cased in
the source and falls into the last arm. -/
def get_cfg_go (bl : List (Nat × String)) : List (List Instr) → Nat → List (String × List String)
  | [], _ => []
  | b :: rest, i =>
    let curr := (alookup i bl).getD ""
    let last := b.getLastD {}
    let succs :=
      if last.op = some "jmp" then [(last.labels.getD []).headD ""]
      else if last.op = some "br" then last.labels.getD []
      else if rest = [] then [] else [(alookup (i + 1) bl).getD ""]
    (curr, succs) :: get_cfg_go bl rest (i + 1)

/-- `get_cfg` of `dataflow/dataflow.py`. -/
def get_cfg (blocks : List (List Instr)) (bl : List (Nat × String)) :
    List (String × List String) :=
  get_cfg_go bl blocks 0

/-- An instruction tagged with its position in the function's instruction
list, standing in for Python's `id(instr)` object identity. -/
abbrev IdxI := Nat × Instr

/-- `form_blocks` applied to index-tagged instructions (the splitting looks
only at the instruction component). -/
def fb_go_idx : List IdxI → List IdxI → List (List IdxI)
  | [], cur => if cur = [] then [] else [cur]
  | i :: rest, cur =>
    if i.2.op.isSome then
      if is_term i.2 then (cur ++ [i]) :: fb_go_idx rest []
      else fb_go_idx rest (cur ++ [i])
    else
      (if cur = [] then [] else [cur]) ++ fb_go_idx rest [i]

/-- Index-tagged `form_blocks`, used by the `dse.py` pipeline. -/
def form_blocks_idx (instrs : List IdxI) : List (List IdxI) :=
  fb_go_idx instrs []

/-- `initialize_labels` of `memory/dse.py` (the labels list): the block's
leading label, else the synthetic name `<bb{idx}>`. -/
def init_labels (blocks : List (List IdxI)) : List String :=
  blocks.enum.map (fun p => ((p.2.headD (0, {})).2.label.getD ("<bb" ++ toString p.1 ++ ">")))

/-- `add_cfg_edge` of `memory/dse.py`: edges contributed by a block's last
instruction.  `br` yields both targets, `jmp` its single target, and any other
opcode — including `ret` — falls through to the next block when there is
one. -/
def add_cfg_succs (last : Instr) (labels : List String) (idx nblocks : Nat) : List String :=
  if last.op = some "br" then last.labels.getD []
  else if last.op = some "jmp" then [(last.labels.getD []).headD ""]
  else if idx + 1 < nblocks then [labels.getD (idx + 1) ""] else []

/-- `build_cfg_edges` of `memory/dse.py`. -/
def build_cfg_edges (blocks : List (List IdxI)) (labels : List String) :
    List (String × List String) :=
  blocks.enum.map (fun p =>
    let label := labels.getD p.1 ""
    let last := (p.2.getLastD (0, {})).2
    let succs :=
      if last.op.isSome then add_cfg_succs last labels p.1 blocks.length
      else if p.1 + 1 < blocks.length then [labels.getD (p.1 + 1) ""] else []
    (label, succs))

/-- `construct_cfg` of `memory/dse.py`. -/
def construct_cfg (blocks : List (List IdxI)) : List (String × List String) × List String :=
  let labels := init_labels blocks
  (build_cfg_edges blocks labels, labels)

/-- A function whose first basic block ends in `ret` and is followed by a
labelled block. -/
def retExampleFunc : Func :=
  { name := "main",
    instrs := [
      { op := some "ret" },
      { label := some "next" },
      { op := some "const", dest := some "x", typ := some "int", value := some 1 }] }

/-- C2 (code bug): neither CFG builder special-cases `ret`.  On a function
whose first block ends in `ret`, `get_cfg` of `dataflow/dataflow.py` and
`construct_cfg` of `memory/dse.py` both give that block the following block as
a fall-through successor, where the claim requires no successors. -/
theorem cfg_ret_block_falls_through :
    get_cfg (form_blocks retExampleFunc.instrs)
        (get_block_labels (form_blocks retExampleFunc.instrs)) =
      [("block.00", ["next"]), ("next", [])] ∧
    construct_cfg (form_blocks_idx retExampleFunc.instrs.enum) =
      ([("<bb0>", ["next"]), ("next", [])], ["<bb0>", "next"]) := by
  constructor
  · rfl
  · rfl

/-!
Local value numbering, `local_opt/lvn.py`.
The pass threads four tables through a forward scan of the block:
`var2num` (with the `Numbering` counter `nextId`), `value2num`, `num2vars`
and `num2const`.  A canonical value is built only for instructions that have
both a destination and an `args` list and are not calls; `const` instructions
carry `value` instead of `args`, so they never enter `value2num`.
-/

/-- A canonical value of LVN: opcode plus operand value numbers. -/
abbrev LvnValue := String × List Nat

/-- `canonicalize` of `lvn.py`: sort the operand numbers of commutative
opcodes (`add`, `mul`). -/
def canonicalize (v : LvnValue) : LvnValue :=
  if v.1 = "add" ∨ v.1 = "mul" then (v.1, v.2.insertionSort (· ≤ ·)) else v

/-- Worker of `last_writes` of `lvn.py`, scanning the reversed block with the
set of destinations already seen. -/
def lw_go : List Instr → List String → List Bool
  | [], _ => []
  | i :: rest, seen =>
    match i.dest with
    | some d =>
      if d ∈ seen then false :: lw_go rest seen else true :: lw_go rest (d :: seen)
    | none => false :: lw_go rest seen

/-- `last_writes` of `lvn.py`: for each instruction, whether it is the last
write to its destination within the block. -/
def last_writes (instrs : List Instr) : List Bool :=
  (lw_go instrs.reverse []).reverse

/-- `get_variables_read_before_write` of `lvn.py`.  The source collects a
Python set; it is modelled as a duplicate-free list in first-occurrence order
(the one place the order matters, the seeding of `var2num`, only fixes which
fresh numbers the seeded variables receive). -/
def read_before_write : List Instr → List String → List String → List String
  | [], _, acc => acc.reverse
  | i :: rest, written, acc =>
    let acc' := (i.args.getD []).foldl
      (fun a arg => if arg ∈ written ∨ arg ∈ a then a else arg :: a) acc
    match i.dest with
    | some d => read_before_write rest (d :: written) acc'
    | none => read_before_write rest written acc'

/-- The mutable state of `lvn_block`. -/
structure LvnState where
  var2num : List (String × Nat) := []
  nextId : Nat := 0
  value2num : List (LvnValue × Nat) := []
  num2vars : List (Nat × List String) := []
  num2const : List (Nat × Int) := []
deriving Repr

/-- `Numbering.add` of `lvn.py`: assign the next fresh number to a key. -/
def lvn_add (key : String) (st : LvnState) : Nat × LvnState :=
  (st.nextId, { st with var2num := aset key st.nextId st.var2num, nextId := st.nextId + 1 })

/-- Seeding loop of `lvn_block`: variables read before any write get fresh
numbers and become their class representative. -/
def lvn_seed : List String → LvnState → LvnState
  | [], st => st
  | v :: rest, st =>
    let p := lvn_add v st
    lvn_seed rest { p.2 with num2vars := aset p.1 [v] p.2.num2vars }

/-- Main loop body of `lvn_block` over `zip(block, last_writes(block))`,
emitting the rewritten instructions.  The first match arm is the redundancy-
elimination branch of the source (a canonical value that already has a
number), the remaining two are its final `if 'dest' in instr` block. -/
def lvn_go : LvnState → List (Instr × Bool) → List Instr
  | _, [] => []
  | st, (instr, lastw) :: rest =>
    let argvars := instr.args.getD []
    let argnums := argvars.map (fun v => (alookup v st.var2num).getD 0)
    let instr1 :=
      if instr.args.isSome then
        { instr with args := some (argnums.map
            (fun n => ((alookup n st.num2vars).getD []).headD "")) }
      else instr
    let num2vars1 :=
      match instr1.dest with
      | some d => st.num2vars.map (fun p => (p.1, py_remove_first d p.2))
      | none => st.num2vars
    let val : Option LvnValue :=
      if instr1.dest.isSome ∧ instr1.args.isSome ∧ instr1.op ≠ some "call" then
        some (canonicalize (instr1.op.getD "", argnums))
      else none
    match instr1.dest, val.bind (fun v => alookup v st.value2num) with
    | some d, some num =>
      let st1 := { st with var2num := aset d num st.var2num, num2vars := num2vars1 }
      match alookup num st.num2const with
      | some c =>
        ({ instr1 with op := some "const", value := some c, args := none }) ::
          lvn_go st1 rest
      | none =>
        let rep := ((alookup num num2vars1).getD []).headD ""
        let nv2 := aset num (((alookup num num2vars1).getD []) ++ [d]) num2vars1
        let st2 := { st1 with num2vars := nv2 }
        ({ instr1 with op := some "id", args := some [rep] }) :: lvn_go st2 rest
    | some d, none =>
      let newnum := st.nextId
      let var2num2 := aset d newnum st.var2num
      let num2const2 :=
        if instr1.op = some "const" then aset newnum (instr1.value.getD 0) st.num2const
        else st.num2const
      let var := if lastw then d else "lvn." ++ toString newnum
      let num2vars2 := aset newnum [var] num2vars1
      let value2num2 :=
        match val with
        | some v => aset v newnum st.value2num
        | none => st.value2num
      ({ instr1 with dest := some var }) ::
        lvn_go { var2num := var2num2, nextId := newnum + 1, value2num := value2num2,
                 num2vars := num2vars2, num2const := num2const2 } rest
    | none, _ => instr1 :: lvn_go { st with num2vars := num2vars1 } rest

/-- `lvn_block` of `lvn.py`: seed the tables with the variables read before
any write, then run the main loop. -/
def lvn_block (block : List Instr) : List Instr :=
  lvn_go (lvn_seed (read_before_write block [] []) {}) (block.zip (last_writes block))

/-- `lvn` of `lvn.py`, restricted to one function of the program: rewrite each
block and flatten. -/
def lvn_func (f : Func) : Func :=
  { f with instrs := flatten ((form_blocks f.instrs).map lvn_block) }

/-- The block of the spec's LVN example:
`a:int = const 4; b:int = const 4; c:int = add a b;`. -/
def lvnExampleBlock : List Instr :=
  [{ op := some "const", dest := some "a", typ := some "int", value := some 4 },
   { op := some "const", dest := some "b", typ := some "int", value := some 4 },
   { op := some "add", dest := some "c", typ := some "int", args := some ["a", "b"] }]

/-- C4 counterexample: on the spec's example block, `lvn_block` does not
rewrite the instruction defining `b` into a copy of `a` — the instruction
keeps the opcode `const`.  A canonical value is built only for instructions
that carry an `args` list, which `const` instructions do not, so equal
constants never share a value number. -/
theorem lvn_const_not_rewritten_cex :
    (lvn_block lvnExampleBlock).get? 1 =
      some { op := some "const", dest := some "b", typ := some "int", value := some 4 } ∧
    (lvn_block lvnExampleBlock).map Instr.op =
      [some "const", some "const", some "add"] := by
  constructor
  · rfl
  · rfl

/-- C4 as amended: on the spec's example block LVN is the identity — in
particular `b:int = const 4` is left unchanged, because constant loads carry
no argument list and therefore never receive a canonical value. -/
theorem lvn_const_not_unified :
    lvn_block lvnExampleBlock = lvnExampleBlock := by
  rfl

/-!
Alias analysis, memory liveness and dead-store elimination, `memory/dse.py`.
Points-to sets are `Finset String` (Python set equality is extensional).
`dse.py` defines `remove_dead_stores` twice; the later definition (the one
without the consecutive-store collapse) shadows the earlier one and is the one
the pipeline runs, so it is the one modelled here.
-/

/-- A points-to map, Python's per-variable alias dictionary. -/
abbrev AliasMap := List (String × Finset String)

/-- `collect_alloc_sites` of `dse.py` over index-tagged instructions: the
`idx` tag stands for `id(instr)` and each `alloc` receives the tag
`alloc_{counter}` in program order. -/
def collect_alloc_sites_go : List IdxI → Nat → List (Nat × String)
  | [], _ => []
  | (idx, i) :: rest, counter =>
    if i.op = some "alloc" then
      (idx, "alloc_" ++ toString counter) :: collect_alloc_sites_go rest (counter + 1)
    else collect_alloc_sites_go rest counter

/-- Python dict equality for alias maps: same keys with equal value sets.
`aset` never creates duplicate keys, so two-sided containment is dict
equality. -/
def adicteq (m1 m2 : AliasMap) : Bool :=
  m1.all (fun p => decide (alookup p.1 m2 = some p.2)) &&
    m2.all (fun p => decide (alookup p.1 m1 = some p.2))

/-- `merge_predecessor_states` of `dse.py`: per-variable union of all
predecessor out-states; a block without predecessors starts from the
function-argument state. -/
def merge_predecessor_states (label : String) (cfg : List (String × List String))
    (outS : List (String × AliasMap)) (init_state : AliasMap) : AliasMap :=
  let preds := (cfg.map Prod.fst).filter (fun p => label ∈ (alookup p cfg).getD [])
  if preds = [] then init_state
  else preds.foldl (fun m pred =>
    ((alookup pred outS).getD []).foldl
      (fun m' pv => aset pv.1 (((alookup pv.1 m').getD ∅) ∪ pv.2) m') m) []

/-- `analyze_block` of `dse.py`: forward transfer of the alias analysis.
`alloc` gives its destination the singleton of its site tag; `id`/`ptradd`
copy the source's set when the source is known; a `load` or `call` result is
`unknown`. -/
def analyze_block_alias (block : List IdxI) (in_map : AliasMap)
    (sites : List (Nat × String)) : AliasMap :=
  block.foldl (fun state p =>
    let instr := p.2
    match instr.op with
    | none => state
    | some op =>
      let args := instr.args.getD []
      match instr.dest with
      | none => state
      | some d =>
        if op = "alloc" then aset d {(alookup p.1 sites).getD ""} state
        else if (op = "id" ∨ op = "ptradd") ∧ args ≠ [] then
          match alookup (args.headD "") state with
          | some s => aset d s state
          | none => state
        else if op = "load" ∨ op = "call" then aset d {"unknown"} state
        else state) in_map

/-- `alias_analysis` of `dse.py`: a FIFO worklist (`deque`, `popleft`,
`extend` of the successors not already enqueued) run to a fixpoint.  The
Python loop runs until the worklist empties; the fuel bounds the number of
pops and `none` is returned only when it is exhausted with work left, so a
`some` result is exactly the Python result. -/
def alias_analysis_go (cfg : List (String × List String))
    (block_map : List (String × List IdxI)) (sites : List (Nat × String))
    (init_state : AliasMap) :
    Nat → List String → List (String × AliasMap) → List (String × AliasMap) →
    Option (List (String × AliasMap) × List (String × AliasMap))
  | _, [], inS, outS => some (inS, outS)
  | 0, _ :: _, _, _ => none
  | fuel + 1, label :: rest, inS, outS =>
    let in_map := merge_predecessor_states label cfg outS init_state
    let inS' := aset label in_map inS
    let old_out := (alookup label outS).getD []
    let out_map := analyze_block_alias ((alookup label block_map).getD []) in_map sites
    let outS' := aset label out_map outS
    let wl' := if adicteq out_map old_out then rest
               else rest ++ (((alookup label cfg).getD []).filter (fun s => s ∉ rest))
    alias_analysis_go cfg block_map sites init_state fuel wl' inS' outS'

/-- `update_state_based_on_instr` of `dse.py` (used by `build_alias_info`):
like `analyze_block_alias` but `id`/`ptradd` copy `state.get(src, set())`
unconditionally. -/
def update_state_instr (state : AliasMap) (p : IdxI) (sites : List (Nat × String)) :
    AliasMap :=
  let instr := p.2
  match instr.op with
  | none => state
  | some op =>
    let args := instr.args.getD []
    match instr.dest with
    | none => state
    | some d =>
      if op = "alloc" then aset d {(alookup p.1 sites).getD ""} state
      else if (op = "id" ∨ op = "ptradd") ∧ args ≠ [] then
        aset d ((alookup (args.headD "") state).getD ∅) state
      else if op = "load" ∨ op = "call" then aset d {"unknown"} state
      else state

/-- Per-instruction alias snapshots of one block: the state *before* each
instruction, as recorded by `build_alias_info`. -/
def alias_maps_go : List IdxI → AliasMap → List (Nat × String) → List AliasMap
  | [], _, _ => []
  | p :: rest, state, sites => state :: alias_maps_go rest (update_state_instr state p sites) sites

/-- `build_alias_info` of `dse.py`. -/
def build_alias_info (in_alias : List (String × AliasMap)) (labels : List String)
    (blocks : List (List IdxI)) (sites : List (Nat × String)) :
    List (String × List AliasMap) :=
  (labels.zip blocks).map (fun p =>
    (p.1, alias_maps_go p.2 ((alookup p.1 in_alias).getD []) sites))

/-- `compute_out_set` of `dse.py`: union of the live-in sets of the
successors. -/
def compute_out_set (cfg : List (String × List String)) (label : String)
    (lin : List (String × Finset String)) : Finset String :=
  ((alookup label cfg).getD []).foldl (fun s succ => s ∪ (alookup succ lin).getD ∅) ∅

/-- `analyze_memory_uses` of `dse.py`: backward scan adding the alias-resolved
sites of `ret`/`store`/`load`/`call` operands and removing the sites freed by
`free`. -/
def analyze_memory_uses (block : List IdxI) (out_set : Finset String)
    (alias_maps : List AliasMap) : Finset String :=
  ((block.zip alias_maps).reverse).foldl (fun live q =>
    let instr := q.1.2
    let am := q.2
    match instr.op with
    | none => live
    | some op =>
      let args := instr.args.getD []
      if op = "ret" then
        if args ≠ [] then live ∪ (alookup (args.headD "") am).getD ∅ else live
      else if op = "store" then live ∪ (alookup (args.headD "") am).getD ∅
      else if op = "load" then live ∪ (alookup (args.headD "") am).getD ∅
      else if op = "free" then live \ (alookup (args.headD "") am).getD ∅
      else if op = "call" then args.foldl (fun lv a => lv ∪ (alookup a am).getD ∅) live
      else live) out_set

/-- One sweep of `memory_liveness_analysis` over `reversed(labels)`, threading
`live_in`, `live_out` and the `changed` flag. -/
def mem_live_sweep (cfg : List (String × List String))
    (block_map : List (String × List IdxI)) (ainfo : List (String × List AliasMap))
    (labels : List String)
    (st : List (String × Finset String) × List (String × Finset String) × Bool) :
    List (String × Finset String) × List (String × Finset String) × Bool :=
  labels.reverse.foldl (fun acc label =>
    let lin := acc.1
    let lout := acc.2.1
    let out_set := compute_out_set cfg label lin
    let old_in := (alookup label lin).getD ∅
    let lout' := aset label out_set lout
    let in_set := analyze_memory_uses ((alookup label block_map).getD []) out_set
      ((alookup label ainfo).getD [])
    let lin' := aset label in_set lin
    (lin', lout', acc.2.2 || decide (in_set ≠ old_in))) st

/-- The `while changed` loop of `memory_liveness_analysis`; a `some` result is
the Python fixpoint (the loop stops after the first unchanged sweep). -/
def memory_liveness_go (cfg : List (String × List String))
    (block_map : List (String × List IdxI)) (ainfo : List (String × List AliasMap))
    (labels : List String) :
    Nat → List (String × Finset String) → List (String × Finset String) →
    Option (List (String × Finset String) × List (String × Finset String))
  | 0, _, _ => none
  | fuel + 1, lin, lout =>
    let r := mem_live_sweep cfg block_map ainfo labels (lin, lout, false)
    if r.2.2 then memory_liveness_go cfg block_map ainfo labels fuel r.1 r.2.1
    else some (r.1, r.2.1)

/-- `is_dead_store` of `dse.py` (the soundness gate of the pass): a store is
dead only when its target's points-to set is disjoint from the live set and
neither contains `unknown`. -/
def is_dead_store (instr : Instr) (alias_map : AliasMap) (live_vars : Finset String) :
    Bool :=
  if instr.op = some "store" then
    let target := (instr.args.getD []).headD ""
    let points_to := (alookup target alias_map).getD ∅
    decide (points_to ∩ live_vars = ∅ ∧ "unknown" ∉ points_to ∧ "unknown" ∉ live_vars)
  else false

/-- `update_live_vars` of `dse.py`: `load`/`ret` add the resolved sites of
their operand, `free` removes them, `call` adds those of every argument.  A
`store` is not handled and leaves the live set unchanged. -/
def update_live_vars (instr : Instr) (alias_map : AliasMap) (live_vars : Finset String) :
    Finset String :=
  let args := instr.args.getD []
  if instr.op = some "load" ∧ args ≠ [] then
    live_vars ∪ (alookup (args.headD "") alias_map).getD ∅
  else if instr.op = some "free" ∧ args ≠ [] then
    live_vars \ (alookup (args.headD "") alias_map).getD ∅
  else if instr.op = some "ret" ∧ args ≠ [] then
    live_vars ∪ (alookup (args.headD "") alias_map).getD ∅
  else if instr.op = some "call" then
    args.foldl (fun lv a => lv ∪ (alookup a alias_map).getD ∅) live_vars
  else live_vars

/-- The backward elimination scan of (the effective, second) `remove_dead_-
stores` over one block: the input pairs each instruction with its alias
snapshot, *already reversed*; dead stores are skipped, every other
instruction updates the live set and is kept. -/
def dse_go : List (Instr × AliasMap) → Finset String → List Instr
  | [], _ => []
  | (i, am) :: rest, live =>
    if is_dead_store i am live then dse_go rest live
    else i :: dse_go rest (update_live_vars i am live)

/-- Block-level driver of `remove_dead_stores`: each block is processed
backward against its alias snapshots and its live-out set, and the surviving
instructions are flattened back in label order. -/
def rds_blocks (labels : List String) (blocks : List (List IdxI))
    (ainfo : List (String × List AliasMap)) (lout : List (String × Finset String)) :
    List Instr :=
  flatten ((labels.zip blocks).map (fun p =>
    let maps := (alookup p.1 ainfo).getD []
    let live := (alookup p.1 lout).getD ∅
    (dse_go (((p.2.map Prod.snd).zip maps).reverse) live).reverse))

/-- `optimize_function` of `dse.py`: alias analysis, per-instruction alias
snapshots, memory liveness, then dead-store removal.  The two fuels bound the
two fixpoint loops; a `some` result certifies both converged and equals the
Python result. -/
def optimize_function (fuelA fuelL : Nat) (f : Func) : Option Func :=
  let idx := f.instrs.enum
  let blocks := form_blocks_idx idx
  let cl := construct_cfg blocks
  let cfg := cl.1
  let labels := cl.2
  let sites := collect_alloc_sites_go idx 0
  let init_state : AliasMap := f.args.map (fun a => (a.1, ({"unknown"} : Finset String)))
  let block_map := labels.zip blocks
  (alias_analysis_go cfg block_map sites init_state fuelA labels
      (labels.map (fun l => (l, ([] : AliasMap))))
      (labels.map (fun l => (l, ([] : AliasMap))))).bind (fun st =>
    let ainfo := build_alias_info st.1 labels blocks sites
    (memory_liveness_go cfg block_map ainfo labels fuelL
        (labels.map (fun l => (l, (∅ : Finset String))))
        (labels.map (fun l => (l, (∅ : Finset String))))).bind (fun lv =>
      some { f with instrs := rds_blocks labels blocks ainfo lv.2 }))

/-- The single-block function of the spec's DSE example:
`p = alloc one; store p four; store p five; x = load p;`. -/
def dseExampleFunc : Func :=
  { name := "main",
    instrs := [
      { op := some "alloc", dest := some "p", typ := some "ptr", args := some ["one"] },
      { op := some "store", args := some ["p", "four"] },
      { op := some "store", args := some ["p", "five"] },
      { op := some "load", dest := some "x", typ := some "int", args := some ["p"] }] }

/-- C3 (code bug): on the spec's example, `optimize_function` keeps all four
instructions; in particular the overwritten first store survives.  The second,
effective definition of `remove_dead_stores` has no consecutive-store
collapse, and a kept store does not remove its target's sites from the live
set (`update_live_vars` has no `store` case), so the first store's target
`alloc_0` is still live when the scan reaches it. -/
theorem dse_keeps_overwritten_store :
    optimize_function 4 4 dseExampleFunc = some dseExampleFunc ∧
    ({ op := some "store", args := some ["p", "four"] } : Instr) ∈ dseExampleFunc.instrs := by
  constructor
  · rfl
  · decide

lemma dse_go_mem_or_dead :
    ∀ (pairs : List (Instr × AliasMap)) (live : Finset String) (i : Instr) (am : AliasMap),
      (i, am) ∈ pairs →
      i ∈ dse_go pairs live ∨ ∃ l, is_dead_store i am l = true := by
  intro pairs
  induction pairs with
  | nil => intro live i am h; cases h
  | cons p rest ih =>
    intro live i am h
    rcases List.mem_cons.mp h with h | h
    · subst h
      by_cases hd : is_dead_store i am live = true
      · exact Or.inr ⟨live, hd⟩
      · left
        simp [dse_go, hd]
    · by_cases hd : is_dead_store p.1 p.2 live = true
      · have : dse_go (p :: rest) live = dse_go rest live := by
          cases p with
          | mk a b => simp [dse_go, hd]
        rw [this]
        exact ih live i am h
      · have : dse_go (p :: rest) live = p.1 :: dse_go rest (update_live_vars p.1 p.2 live) := by
          cases p with
          | mk a b => simp [dse_go, hd]
        rw [this]
        rcases ih (update_live_vars p.1 p.2 live) i am h with h' | h'
        · exact Or.inl (List.mem_cons_of_mem _ h')
        · exact Or.inr h'

lemma is_dead_store_spec (j : Instr) (amj : AliasMap) (l : Finset String)
    (hd : is_dead_store j amj l = true) :
    j.op = some "store" ∧
    ((alookup ((j.args.getD []).headD "") amj).getD ∅) ∩ l = ∅ ∧
    "unknown" ∉ (alookup ((j.args.getD []).headD "") amj).getD ∅ ∧
    "unknown" ∉ l := by
  by_cases hop : j.op = some "store"
  · simp only [is_dead_store, hop, if_pos] at hd
    exact ⟨hop, of_decide_eq_true hd⟩
  · simp [is_dead_store, hop] at hd

/-- Instrumented twin of `dse_go`: it takes the same branches on the same
`is_dead_store` tests with the same threaded live set, but instead of the
kept instructions it returns the removed occurrences, each paired with the
live set that was current when the scan removed it. -/
def dse_dropped : List (Instr × AliasMap) → Finset String → List ((Instr × AliasMap) × Finset String)
  | [], _ => []
  | (i, am) :: rest, live =>
    if is_dead_store i am live then ((i, am), live) :: dse_dropped rest live
    else dse_dropped rest (update_live_vars i am live)

lemma dse_go_dropped_perm (pairs : List (Instr × AliasMap)) :
    ∀ live : Finset String,
      (pairs.map Prod.fst).Perm
        (dse_go pairs live ++ (dse_dropped pairs live).map (fun q => q.1.1)) := by
  induction pairs with
  | nil => intro live; simp [dse_go, dse_dropped]
  | cons p rest ih =>
    intro live
    obtain ⟨i, am⟩ := p
    by_cases hd : is_dead_store i am live = true
    · simp only [dse_go, dse_dropped, hd, if_true, List.map_cons]
      exact ((ih live).cons i).trans List.perm_middle.symm
    · simp only [dse_go, dse_dropped, hd, if_false, List.map_cons, List.cons_append,
        Bool.false_eq_true]
      exact (ih (update_live_vars i am live)).cons i

lemma dse_dropped_dead (pairs : List (Instr × AliasMap)) :
    ∀ (live : Finset String) (q : (Instr × AliasMap) × Finset String),
      q ∈ dse_dropped pairs live → is_dead_store q.1.1 q.1.2 q.2 = true := by
  induction pairs with
  | nil => intro live q hq; simp [dse_dropped] at hq
  | cons p rest ih =>
    intro live q hq
    obtain ⟨i, am⟩ := p
    by_cases hd : is_dead_store i am live = true
    · simp only [dse_dropped, hd, if_true, List.mem_cons] at hq
      rcases hq with hq | hq
      · subst hq; exact hd
      · exact ih live q hq
    · simp only [dse_dropped, hd, if_false, Bool.false_eq_true] at hq
      exact ih (update_live_vars i am live) q hq

/-- C8: `dse_dropped` records exactly the occurrences the scan removes — the
input instructions split, as a multiset, into the survivors of `dse_go` and
the dropped records — and every dropped record satisfied `is_dead_store` at
the live set current at its removal: it is a `store` whose target's points-to
set is disjoint from that current live set, with `unknown` in neither the
points-to set nor that live set.  Consequently a store whose points-to set
contains `unknown` always survives, with any live-out. -/
theorem dse_removes_only_provably_dead
    (pairs : List (Instr × AliasMap)) (live : Finset String) :
    (pairs.map Prod.fst).Perm
      (dse_go pairs live ++ (dse_dropped pairs live).map (fun q => q.1.1)) ∧
    (∀ q ∈ dse_dropped pairs live,
      is_dead_store q.1.1 q.1.2 q.2 = true ∧
      q.1.1.op = some "store" ∧
      ((alookup ((q.1.1.args.getD []).headD "") q.1.2).getD ∅) ∩ q.2 = ∅ ∧
      "unknown" ∉ (alookup ((q.1.1.args.getD []).headD "") q.1.2).getD ∅ ∧
      "unknown" ∉ q.2) ∧
    (∀ p ∈ pairs,
      "unknown" ∈ (alookup ((p.1.args.getD []).headD "") p.2).getD ∅ →
      p.1 ∈ dse_go pairs live) := by
  refine ⟨dse_go_dropped_perm pairs live, ?_, ?_⟩
  · intro q hq
    have hd := dse_dropped_dead pairs live q hq
    exact ⟨hd, is_dead_store_spec _ _ _ hd⟩
  · intro p hp hunk
    rcases dse_go_mem_or_dead pairs live p.1 p.2 (by simpa using hp) with hmem | ⟨l, hl⟩
    · exact hmem
    · exact absurd hunk (is_dead_store_spec _ _ _ hl).2.2.1

/-- The reversed two-store block of the C8 witness: a provably dead store
(overwritten target `alloc_0`, empty live-out) followed in scan order by a
store through an `unknown`-aliased pointer. -/
def dseWitnessPairs : List (Instr × AliasMap) :=
  [({ op := some "store", args := some ["p", "v"] }, [("p", ({"alloc_0"} : Finset String))]),
   ({ op := some "store", args := some ["q", "w"] }, [("q", ({"unknown"} : Finset String))])]

/-- Witness for C8: on `dseWitnessPairs` with empty live-out the first store
is dropped (its record carries the empty current live set) and the
`unknown`-aliased store survives. -/
theorem dse_removes_only_provably_dead_witness :
    ((dseWitnessPairs.map Prod.fst).Perm
      (dse_go dseWitnessPairs ∅ ++ (dse_dropped dseWitnessPairs ∅).map (fun q => q.1.1)) ∧
    (∀ q ∈ dse_dropped dseWitnessPairs ∅,
      is_dead_store q.1.1 q.1.2 q.2 = true ∧
      q.1.1.op = some "store" ∧
      ((alookup ((q.1.1.args.getD []).headD "") q.1.2).getD ∅) ∩ q.2 = ∅ ∧
      "unknown" ∉ (alookup ((q.1.1.args.getD []).headD "") q.1.2).getD ∅ ∧
      "unknown" ∉ q.2) ∧
    (∀ p ∈ dseWitnessPairs,
      "unknown" ∈ (alookup ((p.1.args.getD []).headD "") p.2).getD ∅ →
      p.1 ∈ dse_go dseWitnessPairs ∅)) ∧
    dse_go dseWitnessPairs ∅ = [{ op := some "store", args := some ["q", "w"] }] ∧
    dse_dropped dseWitnessPairs ∅ =
      [(({ op := some "store", args := some ["p", "v"] },
         [("p", ({"alloc_0"} : Finset String))]), ∅)] :=
  ⟨dse_removes_only_provably_dead dseWitnessPairs ∅, rfl, rfl⟩

/-- C9: every pass rewrites only the instruction list of the function it is
given: `lvn`, `local_dce`, `global_dce` and (when its fixpoints converge)
`optimize_function` leave the name, the parameter list and the return type
unchanged.  All four are pure functions of the given `Func`, so no state
outside it is affected. -/
theorem passes_rewrite_only_instrs (f g : Func) (fuelA fuelL : Nat)
    (h : optimize_function fuelA fuelL f = some g) :
    (lvn_func f).name = f.name ∧ (lvn_func f).args = f.args ∧
      (lvn_func f).rtype = f.rtype ∧
    (local_dce f).name = f.name ∧ (local_dce f).args = f.args ∧
      (local_dce f).rtype = f.rtype ∧
    (global_dce f).name = f.name ∧ (global_dce f).args = f.args ∧
      (global_dce f).rtype = f.rtype ∧
    g.name = f.name ∧ g.args = f.args ∧ g.rtype = f.rtype := by
  have hg : g.name = f.name ∧ g.args = f.args ∧ g.rtype = f.rtype := by
    simp only [optimize_function, Option.bind_eq_some] at h
    obtain ⟨st, -, lv, -, h4⟩ := h
    cases h4
    exact ⟨rfl, rfl, rfl⟩
  exact ⟨rfl, rfl, rfl, rfl, rfl, rfl, rfl, rfl, rfl, hg.1, hg.2.1, hg.2.2⟩

/-- Witness for C9 at the empty function, on which `optimize_function`
converges with fuel 1. -/
theorem passes_rewrite_only_instrs_witness :
    (lvn_func {}).name = Func.name {} ∧ (lvn_func {}).args = Func.args {} ∧
      (lvn_func {}).rtype = Func.rtype {} ∧
    (local_dce {}).name = Func.name {} ∧ (local_dce {}).args = Func.args {} ∧
      (local_dce {}).rtype = Func.rtype {} ∧
    (global_dce {}).name = Func.name {} ∧ (global_dce {}).args = Func.args {} ∧
      (global_dce {}).rtype = Func.rtype {} ∧
    Func.name {} = Func.name {} ∧ Func.args {} = Func.args {} ∧
      Func.rtype {} = Func.rtype {} :=
  passes_rewrite_only_instrs {} {} 1 1 rfl

/-!
Loop-invariant code motion, `loop/licm.py`.
The CFG here comes from the external `cfg` module: each vertex carries a set
of successors, modelled as a successor list per label.  Only the hoisting
legality predicates are needed: `get_var_defs` (from `loop/dataflow.py`),
`is_var_defined_elsewhere`, `get_loop_blocks_that_use_var`,
`is_var_used_in_future`, `sat_relaxed_cond_3`, `can_move`, `get_loop_exits`
and the `movable_instrs` selection of `make_preloop_header`.
-/

/-- A natural loop as `licm.py` represents it: header label and member set. -/
structure NatLoop where
  entry : String
  loop : List String

/-- One entry of the `loop_invariants` dictionary: the invariant instruction
and the loop block containing it. -/
structure LoopInv where
  instr : Instr
  block : String
deriving DecidableEq, Repr, Inhabited

/-- Successors of a label in the `licm.py` graph. -/
def succs_of (graph : List (String × List String)) (lb : String) : List String :=
  (alookup lb graph).getD []

/-- `get_var_defs` of `loop/dataflow.py`: destination-to-instruction map of a
block, the last definition winning as in a Python dict comprehension. -/
def get_var_defs (instrs : List Instr) : List (String × Instr) :=
  instrs.foldl (fun m i =>
    match i.dest with
    | some d => aset d i m
    | none => m) []

/-- `is_var_defined_elsewhere` of `licm.py`. -/
def is_var_defined_elsewhere (l2b : List (String × List Instr)) (var : String)
    (vardef : Instr) (loop : NatLoop) : Bool :=
  loop.loop.any (fun lb =>
    (get_var_defs ((alookup lb l2b).getD [])).any
      (fun p => decide (var = p.1) && decide (vardef ≠ p.2)))

/-- `get_loop_blocks_that_use_var` of `licm.py`. -/
def get_loop_blocks_that_use_var (l2b : List (String × List Instr)) (var : String)
    (loop : NatLoop) : List String :=
  loop.loop.filter (fun lb =>
    ((alookup lb l2b).getD []).any (fun i => decide (var ∈ i.args.getD [])))

/-- `get_loop_exits` of `licm.py`: loop blocks with a successor outside the
loop. -/
def get_loop_exits (graph : List (String × List String)) (loop : NatLoop) : List String :=
  loop.loop.filter (fun lb => (succs_of graph lb).any (fun s => decide (s ∉ loop.loop)))

lemma alookup_eq_none_of_not_mem_keys {α : Type} (k : String)
    (l : List (String × α)) (h : k ∉ l.map Prod.fst) : alookup k l = none := by
  induction l with
  | nil => rfl
  | cons p rest ih =>
    obtain ⟨k', v⟩ := p
    simp only [List.map_cons, List.mem_cons] at h
    push_neg at h
    simp only [alookup]
    rw [if_neg (Ne.symm h.1)]
    exact ih h.2

lemma filter_not_mem_cons_eq (keys : List String) (visited : List String) (curr : String)
    (h : curr ∉ keys) :
    keys.filter (fun k => decide (k ∉ curr :: visited)) =
      keys.filter (fun k => decide (k ∉ visited)) := by
  apply List.filter_congr
  intro k hk
  have hne : k ≠ curr := fun he => h (he ▸ hk)
  simp [List.mem_cons, hne]

lemma filter_not_mem_cons_lt (keys : List String) (visited : List String) (curr : String)
    (hk : curr ∈ keys) (hv : curr ∉ visited) :
    (keys.filter (fun k => decide (k ∉ curr :: visited))).length <
      (keys.filter (fun k => decide (k ∉ visited))).length := by
  have hsub : List.Sublist (keys.filter (fun k => decide (k ∉ curr :: visited)))
      (keys.filter (fun k => decide (k ∉ visited))) := by
    apply List.monotone_filter_right
    intro a ha
    simp only [decide_eq_true_eq] at ha ⊢
    intro hmem
    exact ha (List.mem_cons_of_mem _ hmem)
  refine Nat.lt_of_le_of_ne hsub.length_le (fun hlen => ?_)
  have heq := hsub.eq_of_length hlen
  have hcurr : curr ∈ keys.filter (fun k => decide (k ∉ visited)) := by
    simp [List.mem_filter, hk, hv]
  rw [← heq] at hcurr
  simp [List.mem_filter] at hcurr

/-- `is_var_used_in_future` of `licm.py`: a depth-first search from
`start_block` for a block with an instruction reading `var`.  A block is
marked visited when first popped; successors not yet visited are pushed.  The
Python loop terminates because each step either shrinks the stack or visits a
new graph vertex; the recursion here is on exactly that measure. -/
def dfs_used (graph : List (String × List String)) (l2b : List (String × List Instr))
    (var : String) (visited : List String) (stack : List String) : Bool :=
  match stack with
  | [] => false
  | curr :: rest =>
    if curr ∈ visited then dfs_used graph l2b var visited rest
    else if ((alookup curr l2b).getD []).any (fun i => decide (var ∈ i.args.getD [])) then
      true
    else
      dfs_used graph l2b var (curr :: visited)
        (rest ++ (succs_of graph curr).filter (fun s => decide (s ∉ curr :: visited)))
termination_by
  (((graph.map Prod.fst).filter (fun k => decide (k ∉ visited))).length, stack.length)
decreasing_by
  · apply Prod.Lex.right
    simp
  · by_cases hk : curr ∈ graph.map Prod.fst
    · apply Prod.Lex.left
      exact filter_not_mem_cons_lt _ _ _ hk (by assumption)
    · rw [filter_not_mem_cons_eq _ _ _ hk]
      apply Prod.Lex.right
      have hnone : alookup curr graph = none := alookup_eq_none_of_not_mem_keys _ _ hk
      simp [succs_of, hnone]

/-- `is_var_used_in_future` of `licm.py`, entry point. -/
def is_var_used_in_future (graph : List (String × List String))
    (l2b : List (String × List Instr)) (var : String) (start_block : String) : Bool :=
  dfs_used graph l2b var [] [start_block]

/-- `sat_relaxed_cond_3` of `licm.py`: the relaxed hoisting condition — false
outright for the unsafe-to-speculate opcodes `div` and `print`, otherwise
true when the variable is not used on any path leaving the loop. -/
def sat_relaxed_cond_3 (graph : List (String × List String))
    (l2b : List (String × List Instr)) (exits : List String) (li_var : String)
    (loop_invariants : List (String × LoopInv)) (loop : NatLoop) : Bool :=
  let inv := (alookup li_var loop_invariants).getD default
  if inv.instr.op = some "div" ∨ inv.instr.op = some "print" then false
  else exits.all (fun lexit =>
    (succs_of graph lexit).all (fun succ =>
      decide (succ ∈ loop.loop) || !(is_var_used_in_future graph l2b li_var succ)))

/-- `can_move` of `licm.py`: an invariant instruction is legally hoistable iff
its destination has no other definition in the loop, its block dominates every
in-loop use, and every loop exit is dominated by its block or the relaxed
condition holds. -/
def can_move (graph : List (String × List String)) (l2b : List (String × List Instr))
    (dominators : List (String × List String)) (loop_invariants : List (String × LoopInv))
    (li_var : String) (loop : NatLoop) (exits : List String) : Bool :=
  let inv := (alookup li_var loop_invariants).getD default
  !(is_var_defined_elsewhere l2b li_var inv.instr loop) &&
    (get_loop_blocks_that_use_var l2b li_var loop).all
      (fun ub => decide (inv.block ∈ (alookup ub dominators).getD [])) &&
    exits.all (fun lexit =>
      decide (inv.block ∈ (alookup lexit dominators).getD []) ||
        sat_relaxed_cond_3 graph l2b exits li_var loop_invariants loop)

/-- The `movable_instrs` selection of `make_preloop_header` of `licm.py`: the
invariant instructions passing `can_move`, in dictionary order. -/
def movable_instrs (graph : List (String × List String))
    (l2b : List (String × List Instr)) (dominators : List (String × List String))
    (loop_invariants : List (String × LoopInv)) (loop : NatLoop) : List Instr :=
  let exits := get_loop_exits graph loop
  (loop_invariants.filter
    (fun p => can_move graph l2b dominators loop_invariants p.1 loop exits)).map
    (fun p => p.2.instr)

lemma sat_relaxed_cond_3_false_of_unsafe
    (graph : List (String × List String)) (l2b : List (String × List Instr))
    (exits : List String) (li_var : String) (linvs : List (String × LoopInv))
    (loop : NatLoop) (inv : LoopInv)
    (hlk : alookup li_var linvs = some inv)
    (hop : inv.instr.op = some "div" ∨ inv.instr.op = some "print") :
    sat_relaxed_cond_3 graph l2b exits li_var linvs loop = false := by
  simp only [sat_relaxed_cond_3, hlk, Option.getD_some]
  rw [if_pos hop]

/-- C7: a loop-invariant `div` passes `can_move` only when its block
dominates every loop-exit block, and the relaxed condition
`sat_relaxed_cond_3` never holds for a `div` or a `print` — those opcodes are
rejected before the liveness-after-exit search even runs. -/
theorem licm_div_hoist_requires_dominance
    (graph : List (String × List String)) (l2b : List (String × List Instr))
    (dominators : List (String × List String)) (linvs : List (String × LoopInv))
    (li_var : String) (loop : NatLoop) (inv : LoopInv)
    (hlk : alookup li_var linvs = some inv)
    (hop : inv.instr.op = some "div")
    (hmv : can_move graph l2b dominators linvs li_var loop
      (get_loop_exits graph loop) = true) :
    (∀ lexit ∈ get_loop_exits graph loop,
      inv.block ∈ (alookup lexit dominators).getD []) ∧
    (∀ (exits2 : List String) (lv2 : String) (linvs2 : List (String × LoopInv))
       (loop2 : NatLoop) (inv2 : LoopInv),
      alookup lv2 linvs2 = some inv2 →
      (inv2.instr.op = some "div" ∨ inv2.instr.op = some "print") →
      sat_relaxed_cond_3 graph l2b exits2 lv2 linvs2 loop2 = false) := by
  constructor
  · intro lexit hle
    have hsat : sat_relaxed_cond_3 graph l2b (get_loop_exits graph loop) li_var linvs
        loop = false :=
      sat_relaxed_cond_3_false_of_unsafe _ _ _ _ _ _ _ hlk (Or.inl hop)
    simp only [can_move, hlk, Option.getD_some, Bool.and_eq_true,
      List.all_eq_true] at hmv
    have h3 := hmv.2 lexit hle
    rw [hsat] at h3
    simpa using h3
  · intro exits2 lv2 linvs2 loop2 inv2 hlk2 hop2
    exact sat_relaxed_cond_3_false_of_unsafe _ _ _ _ _ _ _ hlk2 hop2

/-- Witness for C7: a two-block loop whose single exit block `B` holds the
`div` and dominates itself, so `can_move` accepts it. -/
theorem licm_div_hoist_requires_dominance_witness :
    (∀ lexit ∈ get_loop_exits [("H", ["B"]), ("B", ["H", "X"]), ("X", [])]
        { entry := "H", loop := ["H", "B"] },
      "B" ∈ (alookup lexit
        [("H", ["H"]), ("B", ["H", "B"]), ("X", ["H", "B", "X"])]).getD []) ∧
    (∀ (exits2 : List String) (lv2 : String) (linvs2 : List (String × LoopInv))
       (loop2 : NatLoop) (inv2 : LoopInv),
      alookup lv2 linvs2 = some inv2 →
      (inv2.instr.op = some "div" ∨ inv2.instr.op = some "print") →
      sat_relaxed_cond_3 [("H", ["B"]), ("B", ["H", "X"]), ("X", [])]
        [("H", []), ("B", [{ op := some "div", dest := some "x", typ := some "int",
                             args := some ["a", "b"] }]), ("X", [])]
        exits2 lv2 linvs2 loop2 = false) :=
  licm_div_hoist_requires_dominance
    [("H", ["B"]), ("B", ["H", "X"]), ("X", [])]
    [("H", []), ("B", [{ op := some "div", dest := some "x", typ := some "int",
                         args := some ["a", "b"] }]), ("X", [])]
    [("H", ["H"]), ("B", ["H", "B"]), ("X", ["H", "B", "X"])]
    [("x", { instr := { op := some "div", dest := some "x", typ := some "int",
                        args := some ["a", "b"] }, block := "B" })]
    "x" { entry := "H", loop := ["H", "B"] }
    { instr := { op := some "div", dest := some "x", typ := some "int",
                 args := some ["a", "b"] }, block := "B" }
    rfl rfl (by decide)

/-!
The generic worklist dataflow engine, `worklist_algorithm` of
`dataflow/dataflow.py` and `data_flow_analysis` of `loop/dataflow.py`.
Both loops pop an arbitrary block from a Python set, recompute its boundary
value by merging the current values of its incoming neighbours, recompute its
far value with the transfer function, and re-enqueue the outgoing neighbours
when the far value changed.  The forward direction reads `nbrIn b` as the
predecessors and `nbrOut b` as the successors of `b` (with `In`/`Out` as the
boundary/far maps); the backward direction is the same step with the two
neighbour maps and the two value maps swapped, so one step relation covers
liveness, constant propagation and reaching definitions alike.  The pop is
modelled as a nondeterministic choice, so every pop order of the source is a
run of the relation.
-/

/-- The engine state: the boundary map, the far map, and the worklist (a
Python set of labels). -/
structure WLState (V : Type) where
  inV : String → V
  outV : String → V
  work : Finset String

/-- The initial state of both Python engines: every label starts at the
initial lattice value and the worklist holds all labels. -/
def wl_init {V : Type} (labels : Finset String) (i0 : V) : WLState V :=
  ⟨fun _ => i0, fun _ => i0, labels⟩

/-- One iteration of the worklist loop: pop any `b` from the worklist,
set `In[b] := merge(Out[n] for n in nbrIn b)`, set `Out[b] := t b In[b]`,
and enqueue `nbrOut b` when `Out[b]` changed. -/
def wl_step {V : Type} [DecidableEq V] (nbrIn nbrOut : String → List String)
    (t : String → V → V) (mrg : List V → V) (s s' : WLState V) : Prop :=
  ∃ b ∈ s.work,
    s'.inV = Function.update s.inV b (mrg ((nbrIn b).map s.outV)) ∧
    s'.outV = Function.update s.outV b (t b (mrg ((nbrIn b).map s.outV))) ∧
    s'.work = (if t b (mrg ((nbrIn b).map s.outV)) = s.outV b
               then s.work.erase b
               else s.work.erase b ∪ (nbrOut b).toFinset)

/-- Any number of worklist iterations. -/
def wl_reaches {V : Type} [DecidableEq V] (nbrIn nbrOut : String → List String)
    (t : String → V → V) (mrg : List V → V) : WLState V → WLState V → Prop :=
  Relation.ReflTransGen (wl_step nbrIn nbrOut t mrg)

/-- The loop invariant of the engine: the worklist stays inside the label
set, and every label not on the worklist satisfies its dataflow equations. -/
def wl_eqns {V : Type} (labels : Finset String) (nbrIn : String → List String)
    (t : String → V → V) (mrg : List V → V) (s : WLState V) : Prop :=
  s.work ⊆ labels ∧
  ∀ b ∈ labels, b ∉ s.work →
    s.inV b = mrg ((nbrIn b).map s.outV) ∧ s.outV b = t b (s.inV b)

lemma forall₂_le_map {V : Type} [Preorder V] (l : List String) (f g : String → V)
    (h : ∀ a ∈ l, f a ≤ g a) : List.Forall₂ (· ≤ ·) (l.map f) (l.map g) := by
  induction l with
  | nil => exact List.Forall₂.nil
  | cons a rest ih =>
    exact List.Forall₂.cons (h a (List.mem_cons_self a rest))
      (ih fun x hx => h x (List.mem_cons_of_mem _ hx))

lemma wl_eqns_init {V : Type} (labels : Finset String) (nbrIn : String → List String)
    (t : String → V → V) (mrg : List V → V) (i0 : V) :
    wl_eqns labels nbrIn t mrg (wl_init labels i0) := by
  refine ⟨Finset.Subset.refl _, ?_⟩
  intro b hb hnb
  exact absurd hb hnb

lemma wl_eqns_step {V : Type} [DecidableEq V] {labels : Finset String}
    {nbrIn nbrOut : String → List String} {t : String → V → V} {mrg : List V → V}
    {s s' : WLState V}
    (hio : ∀ a b, a ∈ nbrIn b ↔ b ∈ nbrOut a)
    (hout : ∀ b a, a ∈ nbrOut b → a ∈ labels)
    (hs : wl_eqns labels nbrIn t mrg s)
    (hstep : wl_step nbrIn nbrOut t mrg s s') :
    wl_eqns labels nbrIn t mrg s' := by
  obtain ⟨b, hbw, hin, houtv, hwork⟩ := hstep
  constructor
  · intro x hx
    rw [hwork] at hx
    by_cases hchg : t b (mrg ((nbrIn b).map s.outV)) = s.outV b
    · rw [if_pos hchg] at hx
      exact hs.1 (Finset.erase_subset _ _ hx)
    · rw [if_neg hchg] at hx
      rcases Finset.mem_union.mp hx with hx | hx
      · exact hs.1 (Finset.erase_subset _ _ hx)
      · exact hout b x (List.mem_toFinset.mp hx)
  · intro c hcl hcnw
    by_cases hcb : c = b
    · subst hcb
      by_cases hchg : t c (mrg ((nbrIn c).map s.outV)) = s.outV c
      · have houts : s'.outV = s.outV := by
          rw [houtv, hchg, Function.update_eq_self]
        constructor
        · rw [houts, hin, Function.update_same]
        · rw [houts, hin, Function.update_same, hchg.symm]
      · have hnotout : c ∉ nbrOut c := by
          intro hmem
          apply hcnw
          rw [hwork, if_neg hchg]
          exact Finset.mem_union_right _ (List.mem_toFinset.mpr hmem)
        have hnotin : c ∉ nbrIn c := fun hmem => hnotout ((hio c c).mp hmem)
        have hmap : (nbrIn c).map s'.outV = (nbrIn c).map s.outV := by
          apply List.map_congr_left
          intro a ha
          have hab : a ≠ c := fun he => hnotin (he ▸ ha)
          rw [houtv, Function.update_noteq hab]
        constructor
        · rw [hin, Function.update_same, hmap]
        · rw [houtv, hin, Function.update_same, Function.update_same]
    · have hcnws : c ∉ s.work := by
        intro hmem
        apply hcnw
        by_cases hchg : t b (mrg ((nbrIn b).map s.outV)) = s.outV b
        · rw [hwork, if_pos hchg]
          exact Finset.mem_erase.mpr ⟨hcb, hmem⟩
        · rw [hwork, if_neg hchg]
          exact Finset.mem_union_left _ (Finset.mem_erase.mpr ⟨hcb, hmem⟩)
      obtain ⟨he1, he2⟩ := hs.2 c hcl hcnws
      have hinc : s'.inV c = s.inV c := by
        rw [hin, Function.update_noteq hcb]
      have houtc : s'.outV c = s.outV c := by
        rw [houtv, Function.update_noteq hcb]
      have hmap : (nbrIn c).map s'.outV = (nbrIn c).map s.outV := by
        by_cases hchg : t b (mrg ((nbrIn b).map s.outV)) = s.outV b
        · have houts : s'.outV = s.outV := by
            rw [houtv, hchg, Function.update_eq_self]
          rw [houts]
        · apply List.map_congr_left
          intro a ha
          have hab : a ≠ b := by
            intro he
            subst he
            apply hcnw
            rw [hwork, if_neg hchg]
            exact Finset.mem_union_right _ (List.mem_toFinset.mpr ((hio a c).mp ha))
          rw [houtv, Function.update_noteq hab]
      constructor
      · rw [hinc, he1, hmap]
      · rw [houtc, hinc, he2]

lemma wl_eqns_reaches {V : Type} [DecidableEq V] {labels : Finset String}
    {nbrIn nbrOut : String → List String} {t : String → V → V} {mrg : List V → V}
    {i0 : V} {s : WLState V}
    (hio : ∀ a b, a ∈ nbrIn b ↔ b ∈ nbrOut a)
    (hout : ∀ b a, a ∈ nbrOut b → a ∈ labels)
    (hr : wl_reaches nbrIn nbrOut t mrg (wl_init labels i0) s) :
    wl_eqns labels nbrIn t mrg s := by
  induction hr with
  | refl => exact wl_eqns_init labels nbrIn t mrg i0
  | tail _ hstep ih => exact wl_eqns_step hio hout ih hstep

lemma wl_le_step {V : Type} [DecidableEq V] [PartialOrder V] {labels : Finset String}
    {nbrIn nbrOut : String → List String} {t : String → V → V} {mrg : List V → V}
    {s s' F : WLState V}
    (hmrg : ∀ l1 l2 : List V, List.Forall₂ (· ≤ ·) l1 l2 → mrg l1 ≤ mrg l2)
    (ht : ∀ b v w, v ≤ w → t b v ≤ t b w)
    (hF : wl_eqns labels nbrIn t mrg F) (hFw : F.work = ∅)
    (hs : wl_eqns labels nbrIn t mrg s)
    (hle : (∀ x, s.inV x ≤ F.inV x) ∧ (∀ x, s.outV x ≤ F.outV x))
    (hstep : wl_step nbrIn nbrOut t mrg s s') :
    (∀ x, s'.inV x ≤ F.inV x) ∧ (∀ x, s'.outV x ≤ F.outV x) := by
  obtain ⟨b, hbw, hin, houtv, hwork⟩ := hstep
  have hbl : b ∈ labels := hs.1 hbw
  have hFb := hF.2 b hbl (by rw [hFw]; exact Finset.not_mem_empty b)
  have hnewIn : mrg ((nbrIn b).map s.outV) ≤ F.inV b := by
    rw [hFb.1]
    exact hmrg _ _ (forall₂_le_map _ _ _ (fun a _ => hle.2 a))
  have hnewOut : t b (mrg ((nbrIn b).map s.outV)) ≤ F.outV b := by
    rw [hFb.2]
    exact ht b _ _ hnewIn
  constructor
  · intro x
    by_cases hxb : x = b
    · subst hxb
      rw [hin, Function.update_same]
      exact hnewIn
    · rw [hin, Function.update_noteq hxb]
      exact hle.1 x
  · intro x
    by_cases hxb : x = b
    · subst hxb
      rw [houtv, Function.update_same]
      exact hnewOut
    · rw [houtv, Function.update_noteq hxb]
      exact hle.2 x

lemma wl_le_reaches {V : Type} [DecidableEq V] [PartialOrder V] {labels : Finset String}
    {nbrIn nbrOut : String → List String} {t : String → V → V} {mrg : List V → V}
    {i0 : V} {s F : WLState V}
    (hbot : ∀ v, i0 ≤ v)
    (hmrg : ∀ l1 l2 : List V, List.Forall₂ (· ≤ ·) l1 l2 → mrg l1 ≤ mrg l2)
    (ht : ∀ b v w, v ≤ w → t b v ≤ t b w)
    (hio : ∀ a b, a ∈ nbrIn b ↔ b ∈ nbrOut a)
    (hout : ∀ b a, a ∈ nbrOut b → a ∈ labels)
    (hF : wl_eqns labels nbrIn t mrg F) (hFw : F.work = ∅)
    (hr : wl_reaches nbrIn nbrOut t mrg (wl_init labels i0) s) :
    (∀ x, s.inV x ≤ F.inV x) ∧ (∀ x, s.outV x ≤ F.outV x) := by
  induction hr with
  | refl => exact ⟨fun x => hbot _, fun x => hbot _⟩
  | @tail s₁ s₂ hr₁ hstep ih =>
    exact wl_le_step hmrg ht hF hFw (wl_eqns_reaches hio hout hr₁) ih hstep

/-- C5: the worklist engine is order-independent.  For every label set, every
pair of inverse neighbour maps (predecessors/successors of a CFG), every
monotone transfer and merge over a partial order with the initial value at the
bottom — the situation of the liveness, constant-propagation and
reaching-definitions instances — any two terminating runs of the engine from
the seeded initial state end with the same `In` and `Out` maps, whatever
order the worklist was popped in. -/
theorem worklist_fixpoint_order_independent {V : Type} [DecidableEq V] [PartialOrder V]
    (labels : Finset String) (nbrIn nbrOut : String → List String)
    (t : String → V → V) (mrg : List V → V) (i0 : V)
    (hbot : ∀ v, i0 ≤ v)
    (hmrg : ∀ l1 l2 : List V, List.Forall₂ (· ≤ ·) l1 l2 → mrg l1 ≤ mrg l2)
    (ht : ∀ b v w, v ≤ w → t b v ≤ t b w)
    (hio : ∀ a b, a ∈ nbrIn b ↔ b ∈ nbrOut a)
    (hout : ∀ b a, a ∈ nbrOut b → a ∈ labels)
    (s1 s2 : WLState V)
    (h1 : wl_reaches nbrIn nbrOut t mrg (wl_init labels i0) s1)
    (h2 : wl_reaches nbrIn nbrOut t mrg (wl_init labels i0) s2)
    (hw1 : s1.work = ∅) (hw2 : s2.work = ∅) :
    s1.inV = s2.inV ∧ s1.outV = s2.outV := by
  have e1 : wl_eqns labels nbrIn t mrg s1 := wl_eqns_reaches hio hout h1
  have e2 : wl_eqns labels nbrIn t mrg s2 := wl_eqns_reaches hio hout h2
  have le21 := wl_le_reaches hbot hmrg ht hio hout e1 hw1 h2
  have le12 := wl_le_reaches hbot hmrg ht hio hout e2 hw2 h1
  constructor
  · funext x
    exact le_antisymm (le12.1 x) (le21.1 x)
  · funext x
    exact le_antisymm (le12.2 x) (le21.2 x)

/-- The terminal state of a one-label, no-edge engine run used as the C5
witness. -/
def wl_demo_final : WLState Nat :=
  ⟨Function.update (fun _ => 0) "A" 0, Function.update (fun _ => 0) "A" 0, ∅⟩

/-- Witness for C5: on a one-block CFG with the trivial analysis, two runs
(both popping the single label once) end in the same maps. -/
theorem worklist_fixpoint_order_independent_witness :
    wl_demo_final.inV = wl_demo_final.inV ∧ wl_demo_final.outV = wl_demo_final.outV := by
  have hstep : wl_step (fun _ => ([] : List String)) (fun _ => ([] : List String))
      (fun _ _ => (0 : Nat)) (fun _ => (0 : Nat))
      (wl_init {"A"} 0) wl_demo_final := by
    refine ⟨"A", by simp [wl_init], rfl, rfl, ?_⟩
    simp [wl_init, wl_demo_final]
  exact worklist_fixpoint_order_independent {"A"} (fun _ => []) (fun _ => [])
    (fun _ _ => 0) (fun _ => 0) 0 (fun v => Nat.zero_le v)
    (fun l1 l2 _ => le_refl 0) (fun b v w _ => le_refl 0)
    (by simp) (by simp) wl_demo_final wl_demo_final
    (Relation.ReflTransGen.single hstep) (Relation.ReflTransGen.single hstep)
    rfl rfl
